import Mathlib

/-!
Verification of the buffer content synchronization engine of this repository
(`src/buffer/buffer.ts` and its helper modules) against its specification.

Text is embedded as `List Char`, raw bytes as `List Nat`.  The host-side
state manipulated by the Vim script functions is embedded as explicit record
states; asynchronous actions that may reject are embedded as functions
returning an `Except` outcome together with the state they produced.
-/

/-- Text content, embedded as a list of characters. -/
abbrev Txt := List Char

/-- Tests whether the pattern `p` starts the text `t` (character-wise). -/
def startsWithSeq : Txt → Txt → Bool
  | [], _ => true
  | _ :: _, [] => false
  | p :: ps, c :: cs => p == c && startsWithSeq ps cs

/-- Tests whether the pattern `pat` occurs contiguously anywhere in the text. -/
def containsSeq (pat : Txt) : Txt → Bool
  | [] => pat.isEmpty
  | c :: rest => startsWithSeq pat (c :: rest) || containsSeq pat rest

/-- Tests whether the pattern `pat` ends the text `t`. -/
def endsWithSeq (pat t : Txt) : Bool :=
  startsWithSeq pat.reverse t.reverse

theorem startsWithSeq_iff (p : Txt) : ∀ t, startsWithSeq p t = true ↔ ∃ u, t = p ++ u := by
  induction p with
  | nil =>
    intro t
    simp [startsWithSeq]
  | cons a ps ih =>
    intro t
    cases t with
    | nil =>
      simp [startsWithSeq]
    | cons c cs =>
      simp only [startsWithSeq, Bool.and_eq_true, beq_iff_eq, ih]
      constructor
      · rintro ⟨rfl, u, rfl⟩
        exact ⟨u, rfl⟩
      · rintro ⟨u, h⟩
        cases h
        exact ⟨rfl, u, rfl⟩

theorem endsWithSeq_iff (p t : Txt) : endsWithSeq p t = true ↔ ∃ u, t = u ++ p := by
  rw [endsWithSeq, startsWithSeq_iff]
  constructor
  · rintro ⟨u, h⟩
    refine ⟨u.reverse, ?_⟩
    have := congrArg List.reverse h
    simpa using this
  · rintro ⟨u, rfl⟩
    exact ⟨u.reverse, by simp⟩

theorem containsSeq_of_startsWithSeq {pat t : Txt} (h : startsWithSeq pat t = true) :
    containsSeq pat t = true := by
  cases t with
  | nil =>
    cases pat with
    | nil => simp [containsSeq]
    | cons a ps => simp [startsWithSeq] at h
  | cons c cs =>
    simp [containsSeq, h]

/-- Modelled from the spec: the three file formats of §3, each bound to its
exact delimiter (the source module `src/buffer/fileformat.ts` is not part of
the provided sources). -/
inductive FileFormat
  | unix
  | dos
  | mac
deriving DecidableEq

/-- The delimiter bound to each file format: LF, CRLF, CR respectively. -/
def FileFormat.delimiter : FileFormat → Txt
  | .unix => ['\n']
  | .dos => ['\r', '\n']
  | .mac => ['\r']

/-- The option-value name of each file format, as the host editor spells it. -/
def FileFormat.name : FileFormat → String
  | .unix => "unix"
  | .dos => "dos"
  | .mac => "mac"

/-- Modelled from the spec: the type-guard for file format names
(`isFileFormat` of the missing `src/buffer/fileformat.ts`), returned here as
the parsed format so the typed embedding can use it. -/
def parseFileFormat (s : String) : Option FileFormat :=
  if s = "unix" then some .unix
  else if s = "dos" then some .dos
  else if s = "mac" then some .mac
  else none

theorem parseFileFormat_name (f : FileFormat) : parseFileFormat f.name = some f := by
  cases f <;> rfl

theorem FileFormat.delimiter_ne_nil (f : FileFormat) : f.delimiter ≠ [] := by
  cases f <;> simp [FileFormat.delimiter]

/-- Prepends a character to the first segment of a segment list. -/
def consHead (c : Char) : List Txt → List Txt
  | [] => [[c]]
  | l :: ls => (c :: l) :: ls

/-- Splits a text on every contiguous occurrence of the delimiter, scanned
left to right; the `fuel` argument (instantiated with the text length) makes
the recursion structural. -/
def splitSeqAux (delim : Txt) : Nat → Txt → List Txt
  | _, [] => [[]]
  | 0, t => [t]
  | fuel + 1, c :: rest =>
    if startsWithSeq delim (c :: rest) then
      [] :: splitSeqAux delim fuel (List.drop (delim.length - 1) rest)
    else
      consHead c (splitSeqAux delim fuel rest)

/-- Splits a text on every occurrence of the delimiter. -/
def splitSeq (delim t : Txt) : List Txt :=
  splitSeqAux delim t.length t

/-- Modelled from the spec (§4.3 ContentSplitter; the source module
`src/buffer/fileformat.ts` defining `splitText` is not part of the provided
sources): splits `text` on the format's delimiter and, when the text ends
with a delimiter occurrence, drops the single trailing empty segment. -/
def splitText (text : Txt) (ff : FileFormat) : List Txt :=
  let lines := splitSeq ff.delimiter text
  if endsWithSeq ff.delimiter text then lines.dropLast else lines

/-- Modelled from the spec (§4.1 FileFormatDetector; the source module
`src/buffer/fileformat.ts` defining `findFileFormat` is not part of the
provided sources): returns the first candidate, in the given order, whose
delimiter occurs in the text. -/
def findFileFormat (text : Txt) (fileformats : List FileFormat) : Option FileFormat :=
  fileformats.find? (fun f => containsSeq f.delimiter text)

theorem splitSeqAux_nil (delim : Txt) (fuel : Nat) : splitSeqAux delim fuel [] = [[]] := by
  cases fuel <;> rfl

theorem splitSeqAux_cons (delim : Txt) (n : Nat) (c : Char) (cs : Txt) :
    splitSeqAux delim (n + 1) (c :: cs) =
      if startsWithSeq delim (c :: cs) then
        [] :: splitSeqAux delim n (List.drop (delim.length - 1) cs)
      else consHead c (splitSeqAux delim n cs) := rfl

/-- Every split result is nonempty, its first segment heads the text. -/
theorem splitSeqAux_head (delim : Txt) :
    ∀ fuel t, ∃ l₀ ls u, splitSeqAux delim fuel t = l₀ :: ls ∧ t = l₀ ++ u := by
  intro fuel
  induction fuel with
  | zero =>
    intro t
    cases t with
    | nil => exact ⟨[], [], [], rfl, rfl⟩
    | cons c cs => exact ⟨c :: cs, [], [], rfl, by simp⟩
  | succ n ih =>
    intro t
    cases t with
    | nil => exact ⟨[], [], [], rfl, rfl⟩
    | cons c cs =>
      by_cases h : startsWithSeq delim (c :: cs) = true
      · refine ⟨[], splitSeqAux delim n (List.drop (delim.length - 1) cs), c :: cs, ?_, rfl⟩
        rw [splitSeqAux_cons, if_pos h]
      · obtain ⟨l₀, ls, u, heq, hdecomp⟩ := ih cs
        refine ⟨c :: l₀, ls, u, ?_, by simp [hdecomp]⟩
        rw [splitSeqAux_cons, if_neg h, heq]
        rfl

theorem splitSeqAux_ne_nil (delim : Txt) (fuel : Nat) (t : Txt) :
    splitSeqAux delim fuel t ≠ [] := by
  obtain ⟨l₀, ls, u, heq, _⟩ := splitSeqAux_head delim fuel t
  simp [heq]

/-- A singleton split result means the whole text is the one segment. -/
theorem splitSeqAux_singleton (delim : Txt) :
    ∀ fuel t s, splitSeqAux delim fuel t = [s] → t = s := by
  intro fuel
  induction fuel with
  | zero =>
    intro t s h
    cases t with
    | nil => simpa [splitSeqAux_nil] using h.symm
    | cons c cs => simpa using (List.cons.injEq _ _ _ _ ▸ h).1
  | succ n ih =>
    intro t s h
    cases t with
    | nil => simpa [splitSeqAux_nil] using h.symm
    | cons c cs =>
      rw [splitSeqAux_cons] at h
      by_cases hsw : startsWithSeq delim (c :: cs) = true
      · rw [if_pos hsw] at h
        have := splitSeqAux_ne_nil delim n (List.drop (delim.length - 1) cs)
        simp at h
        exact absurd h.2 this
      · rw [if_neg hsw] at h
        obtain ⟨l₀, ls, u, heq, _⟩ := splitSeqAux_head delim n cs
        rw [heq] at h
        simp only [consHead] at h
        have h1 : c :: l₀ = s := (List.cons.injEq _ _ _ _ ▸ h).1
        have h2 : ls = [] := (List.cons.injEq _ _ _ _ ▸ h).2
        have : cs = l₀ := ih cs l₀ (by rw [heq, h2])
        rw [this, h1]

theorem drop_startsWith {d : Char} {ds cs u : Txt} (h : cs = ds ++ u) :
    List.drop ((d :: ds).length - 1) cs = u := by
  subst h
  simp [List.drop_left]

/-- A text that starts with the (nonempty) delimiter decomposes as the
delimiter followed by the remainder the splitter recurses on. -/
theorem startsWith_decomp {delim : Txt} (hne : delim ≠ []) {c : Char} {cs : Txt}
    (h : startsWithSeq delim (c :: cs) = true) :
    c :: cs = delim ++ List.drop (delim.length - 1) cs := by
  obtain ⟨u, hu⟩ := (startsWithSeq_iff _ _).1 h
  cases delim with
  | nil => exact absurd rfl hne
  | cons d ds =>
    have hcs : cs = ds ++ u := by
      have := (List.cons.injEq _ _ _ _ ▸ hu).2
      simpa using this
    rw [drop_startsWith hcs, hu]

theorem splitSeqAux_zero_cons (delim : Txt) (c : Char) (cs : Txt) :
    splitSeqAux delim 0 (c :: cs) = [c :: cs] := rfl

/-- No produced segment contains the (nonempty) delimiter. -/
theorem splitSeqAux_not_contains (delim : Txt) (hne : delim ≠ []) :
    ∀ fuel t, t.length ≤ fuel →
      ∀ l ∈ splitSeqAux delim fuel t, containsSeq delim l = false := by
  have hnilc : containsSeq delim [] = false := by
    cases delim with
    | nil => exact absurd rfl hne
    | cons d ds => simp [containsSeq]
  intro fuel
  induction fuel with
  | zero =>
    intro t hlen l hl
    have ht : t = [] := by
      cases t with
      | nil => rfl
      | cons c cs => simp at hlen
    subst ht
    rw [splitSeqAux_nil] at hl
    simp at hl
    subst hl
    exact hnilc
  | succ n ih =>
    intro t hlen l hl
    cases t with
    | nil =>
      rw [splitSeqAux_nil] at hl
      simp at hl
      subst hl
      exact hnilc
    | cons c cs =>
      have hcs : cs.length ≤ n := by simpa using hlen
      rw [splitSeqAux_cons] at hl
      by_cases hsw : startsWithSeq delim (c :: cs) = true
      · rw [if_pos hsw] at hl
        rcases List.mem_cons.1 hl with rfl | hl'
        · exact hnilc
        · refine ih (List.drop (delim.length - 1) cs) ?_ l hl'
          calc (List.drop (delim.length - 1) cs).length
              = cs.length - (delim.length - 1) := List.length_drop _ _
            _ ≤ cs.length := Nat.sub_le _ _
            _ ≤ n := hcs
      · rw [if_neg hsw] at hl
        obtain ⟨l₀, ls, u, heq, hdecomp⟩ := splitSeqAux_head delim n cs
        rw [heq] at hl
        simp only [consHead] at hl
        rcases List.mem_cons.1 hl with rfl | hl'
        · have h₀ : containsSeq delim l₀ = false :=
            ih cs hcs l₀ (by rw [heq]; exact List.mem_cons_self _ _)
          have hsw₀ : startsWithSeq delim (c :: l₀) = false := by
            cases hb : startsWithSeq delim (c :: l₀) with
            | false => rfl
            | true =>
              obtain ⟨w, hw⟩ := (startsWithSeq_iff _ _).1 hb
              have hx : startsWithSeq delim (c :: cs) = true := by
                rw [startsWithSeq_iff]
                refine ⟨w ++ u, ?_⟩
                rw [hdecomp, ← List.append_assoc, ← hw]
                rfl
              exact absurd hx hsw
          simp [containsSeq, hsw₀, h₀]
        · exact ih cs hcs l (by rw [heq]; exact List.mem_cons_of_mem _ hl')

/-- When the last produced segment is empty, the text is empty or ends with
the delimiter. -/
theorem splitSeqAux_last_empty (delim : Txt) (hne : delim ≠ []) :
    ∀ fuel t, t.length ≤ fuel →
      (splitSeqAux delim fuel t).getLast? = some [] →
      t = [] ∨ endsWithSeq delim t = true := by
  intro fuel
  induction fuel with
  | zero =>
    intro t hlen _
    left
    cases t with
    | nil => rfl
    | cons c cs => simp at hlen
  | succ n ih =>
    intro t hlen hlast
    cases t with
    | nil => exact Or.inl rfl
    | cons c cs =>
      right
      have hcs : cs.length ≤ n := by simpa using hlen
      rw [splitSeqAux_cons] at hlast
      by_cases hsw : startsWithSeq delim (c :: cs) = true
      · rw [if_pos hsw] at hlast
        have hdec := startsWith_decomp hne hsw
        set w := List.drop (delim.length - 1) cs with hwdef
        obtain ⟨l₀, ls, u, heq, _⟩ := splitSeqAux_head delim n w
        rw [heq, List.getLast?_cons_cons, ← heq] at hlast
        have hwlen : w.length ≤ n := by
          rw [hwdef]
          calc (List.drop (delim.length - 1) cs).length
              = cs.length - (delim.length - 1) := List.length_drop _ _
            _ ≤ cs.length := Nat.sub_le _ _
            _ ≤ n := hcs
        rcases ih w hwlen hlast with hwnil | hwend
        · rw [endsWithSeq_iff]
          exact ⟨[], by rw [hdec, hwnil]; simp⟩
        · obtain ⟨u2, hu2⟩ := (endsWithSeq_iff _ _).1 hwend
          rw [endsWithSeq_iff]
          exact ⟨delim ++ u2, by rw [hdec, hu2, List.append_assoc]⟩
      · rw [if_neg hsw] at hlast
        obtain ⟨l₀, ls, u, heq, _⟩ := splitSeqAux_head delim n cs
        rw [heq] at hlast
        simp only [consHead] at hlast
        cases ls with
        | nil => simp at hlast
        | cons z zs =>
          rw [List.getLast?_cons_cons] at hlast
          have hlast' : (splitSeqAux delim n cs).getLast? = some [] := by
            rw [heq, List.getLast?_cons_cons]
            exact hlast
          rcases ih cs hcs hlast' with hnil | hend
          · rw [hnil, splitSeqAux_nil] at heq
            simp at heq
          · obtain ⟨u2, hu2⟩ := (endsWithSeq_iff _ _).1 hend
            rw [endsWithSeq_iff]
            exact ⟨c :: u2, by rw [hu2]; rfl⟩

/-- When the text ends with the delimiter (a delimiter that is at most two
characters and not a doubled character, which covers all three file
formats), the last produced segment is empty. -/
theorem splitSeqAux_last_of_endsWith (delim : Txt) (hne : delim ≠ [])
    (hlen2 : delim.length ≤ 2) (hdist : ∀ a b, delim = [a, b] → a ≠ b) :
    ∀ fuel t, t.length ≤ fuel → endsWithSeq delim t = true →
      (splitSeqAux delim fuel t).getLast? = some [] := by
  intro fuel
  induction fuel with
  | zero =>
    intro t hlen hend
    have ht : t = [] := by
      cases t with
      | nil => rfl
      | cons c cs => simp at hlen
    subst ht
    obtain ⟨u, hu⟩ := (endsWithSeq_iff _ _).1 hend
    have hd : delim = [] := by
      cases u with
      | nil => simpa using hu.symm
      | cons a as => simp at hu
    exact absurd hd hne
  | succ n ih =>
    intro t hlen hend
    cases t with
    | nil =>
      obtain ⟨u, hu⟩ := (endsWithSeq_iff _ _).1 hend
      have hd : delim = [] := by
        cases u with
        | nil => simpa using hu.symm
        | cons a as => simp at hu
      exact absurd hd hne
    | cons c cs =>
      have hcs : cs.length ≤ n := by simpa using hlen
      obtain ⟨u, hu⟩ := (endsWithSeq_iff _ _).1 hend
      rw [splitSeqAux_cons]
      by_cases hsw : startsWithSeq delim (c :: cs) = true
      · rw [if_pos hsw]
        have hdec := startsWith_decomp hne hsw
        set w := List.drop (delim.length - 1) cs with hwdef
        obtain ⟨l₀, ls, u₂, heq, _⟩ := splitSeqAux_head delim n w
        rw [heq, List.getLast?_cons_cons, ← heq]
        by_cases hw : w = []
        · rw [hw, splitSeqAux_nil]
          rfl
        · have hwlen : w.length ≤ n := by
            rw [hwdef]
            calc (List.drop (delim.length - 1) cs).length
                = cs.length - (delim.length - 1) := List.length_drop _ _
              _ ≤ cs.length := Nat.sub_le _ _
              _ ≤ n := hcs
          have heq2 : delim ++ w = u ++ delim := by rw [← hdec, hu]
          have hlen_u : u.length = w.length := by
            have h1 := congrArg List.length heq2
            simp only [List.length_append] at h1
            omega
          by_cases hge : delim.length ≤ w.length
          · have htake : List.take delim.length u = delim := by
              have t1 : (delim ++ w).take delim.length = delim := List.take_left _ _
              have t2 : (u ++ delim).take delim.length = u.take delim.length :=
                List.take_append_of_le_length (by omega)
              rw [heq2, t2] at t1
              exact t1
            have hu_decomp : u = delim ++ List.drop delim.length u := by
              conv_lhs => rw [← List.take_append_drop delim.length u]
              rw [htake]
            have hw_decomp : w = List.drop delim.length u ++ delim := by
              have h3 := congrArg (List.drop delim.length) heq2
              rw [List.drop_left] at h3
              rw [hu_decomp, List.append_assoc, List.drop_left] at h3
              exact h3
            have hwend : endsWithSeq delim w = true :=
              (endsWithSeq_iff _ _).2 ⟨_, hw_decomp⟩
            exact ih w hwlen hwend
          · exfalso
            have hwpos : 0 < w.length := List.length_pos.2 hw
            have hd2 : delim.length = 2 := by omega
            obtain ⟨a, b, hab⟩ := List.length_eq_two.1 hd2
            have hw1 : w.length = 1 := by omega
            obtain ⟨x, hx⟩ := List.length_eq_one.1 hw1
            have hu1 : u.length = 1 := by omega
            obtain ⟨y, hy⟩ := List.length_eq_one.1 hu1
            rw [hab, hx, hy] at heq2
            have hba : a = y ∧ b = a ∧ x = b := by simpa using heq2
            exact hdist a b hab hba.2.1.symm
      · rw [if_neg hsw]
        cases u with
        | nil =>
          exfalso
          apply hsw
          rw [startsWithSeq_iff]
          exact ⟨[], by rw [hu]; simp⟩
        | cons y u' =>
          have hc2 : cs = u' ++ delim := by
            have := hu
            simp only [List.cons_append] at this
            exact (List.cons.injEq _ _ _ _ ▸ this).2
          have hcend : endsWithSeq delim cs = true :=
            (endsWithSeq_iff _ _).2 ⟨u', hc2⟩
          have hlast := ih cs hcs hcend
          obtain ⟨l₀, ls, u₂, heq, _⟩ := splitSeqAux_head delim n cs
          rw [heq]
          simp only [consHead]
          cases ls with
          | nil =>
            exfalso
            rw [heq] at hlast
            simp at hlast
            have hcl : cs = l₀ := splitSeqAux_singleton delim n cs l₀ (by rw [heq])
            rw [hlast] at hcl
            rw [hc2] at hcl
            have hd : delim = [] := by
              cases u' with
              | nil => simpa using hcl
              | cons a as => simp at hcl
            exact absurd hd hne
          | cons z zs =>
            rw [List.getLast?_cons_cons]
            rw [heq, List.getLast?_cons_cons] at hlast
            exact hlast

/-- The last produced segment is a trailing segment of the text. -/
theorem splitSeqAux_last_suffix (delim : Txt) (hne : delim ≠ []) :
    ∀ fuel t s, (splitSeqAux delim fuel t).getLast? = some s → ∃ u, t = u ++ s := by
  intro fuel
  induction fuel with
  | zero =>
    intro t s h
    cases t with
    | nil =>
      rw [splitSeqAux_nil] at h
      simp at h
      exact ⟨[], by simp [h]⟩
    | cons c cs =>
      rw [splitSeqAux_zero_cons] at h
      simp at h
      exact ⟨[], by simp [h]⟩
  | succ n ih =>
    intro t s h
    cases t with
    | nil =>
      rw [splitSeqAux_nil] at h
      simp at h
      exact ⟨[], by simp [h]⟩
    | cons c cs =>
      rw [splitSeqAux_cons] at h
      by_cases hsw : startsWithSeq delim (c :: cs) = true
      · rw [if_pos hsw] at h
        have hdec := startsWith_decomp hne hsw
        set w := List.drop (delim.length - 1) cs with hwdef
        obtain ⟨l₀, ls, u₂, heq, _⟩ := splitSeqAux_head delim n w
        rw [heq, List.getLast?_cons_cons, ← heq] at h
        obtain ⟨u3, hu3⟩ := ih w s h
        exact ⟨delim ++ u3, by rw [hdec, hu3, List.append_assoc]⟩
      · rw [if_neg hsw] at h
        obtain ⟨l₀, ls, u₂, heq, _⟩ := splitSeqAux_head delim n cs
        rw [heq] at h
        simp only [consHead] at h
        cases ls with
        | nil =>
          simp at h
          have hcl : cs = l₀ := splitSeqAux_singleton delim n cs l₀ (by rw [heq])
          exact ⟨[], by rw [← h, hcl]; rfl⟩
        | cons z zs =>
          rw [List.getLast?_cons_cons] at h
          have h' : (splitSeqAux delim n cs).getLast? = some s := by
            rw [heq, List.getLast?_cons_cons]
            exact h
          obtain ⟨u3, hu3⟩ := ih cs s h'
          exact ⟨c :: u3, by rw [hu3]; rfl⟩

theorem FileFormat.delimiter_len_le (f : FileFormat) : f.delimiter.length ≤ 2 := by
  cases f <;> simp [FileFormat.delimiter]

theorem FileFormat.delimiter_distinct (f : FileFormat) :
    ∀ a b, f.delimiter = [a, b] → a ≠ b := by
  cases f with
  | unix => intro a b h; simp [FileFormat.delimiter] at h
  | mac => intro a b h; simp [FileFormat.delimiter] at h
  | dos =>
    intro a b h
    simp [FileFormat.delimiter] at h
    rw [← h.1, ← h.2]
    decide

/-- C7: for every text and format, `splitText` splits on the format's
delimiter; when the text ends with the delimiter exactly the single trailing
empty segment is dropped; otherwise the final, not delimiter-terminated
segment is kept as the last line; no resulting line contains an occurrence
of the delimiter; and the two convergence examples
splitText "a\nb\n" unix = splitText "a\nb" unix = ["a", "b"] hold. -/
theorem splitText_spec :
    (∀ (ff : FileFormat) (text : Txt), endsWithSeq ff.delimiter text = true →
        (splitSeq ff.delimiter text).getLast? = some [] ∧
        splitText text ff = (splitSeq ff.delimiter text).dropLast)
    ∧ (∀ (ff : FileFormat) (text : Txt), endsWithSeq ff.delimiter text = false →
        splitText text ff = splitSeq ff.delimiter text ∧
        ∃ s, (splitText text ff).getLast? = some s ∧ (text ≠ [] → s ≠ []) ∧
          endsWithSeq s text = true)
    ∧ (∀ (ff : FileFormat) (text : Txt) (l : Txt), l ∈ splitText text ff →
        containsSeq ff.delimiter l = false)
    ∧ splitText ['a', '\n', 'b', '\n'] FileFormat.unix = [['a'], ['b']]
    ∧ splitText ['a', '\n', 'b'] FileFormat.unix = [['a'], ['b']] := by
  refine ⟨?_, ?_, ?_, by decide, by decide⟩
  · intro ff text hend
    refine ⟨?_, ?_⟩
    · exact splitSeqAux_last_of_endsWith ff.delimiter ff.delimiter_ne_nil
        ff.delimiter_len_le ff.delimiter_distinct text.length text le_rfl hend
    · simp [splitText, hend]
  · intro ff text hend
    refine ⟨by simp [splitText, hend], ?_⟩
    have hnn := splitSeqAux_ne_nil ff.delimiter text.length text
    obtain ⟨s, hs⟩ : ∃ s, (splitSeq ff.delimiter text).getLast? = some s := by
      cases hq : (splitSeq ff.delimiter text).getLast? with
      | none => exact absurd (List.getLast?_eq_none_iff.1 hq) hnn
      | some s => exact ⟨s, rfl⟩
    refine ⟨s, by simpa [splitText, hend] using hs, ?_, ?_⟩
    · intro htne hs0
      subst hs0
      rcases splitSeqAux_last_empty ff.delimiter ff.delimiter_ne_nil
          text.length text le_rfl hs with hnil | hend'
      · exact htne hnil
      · rw [hend'] at hend
        cases hend
    · obtain ⟨u, hu⟩ :=
        splitSeqAux_last_suffix ff.delimiter ff.delimiter_ne_nil text.length text s hs
      exact (endsWithSeq_iff _ _).2 ⟨u, hu⟩
  · intro ff text l hl
    have hsub : l ∈ splitSeq ff.delimiter text := by
      rw [splitText] at hl
      by_cases hend : endsWithSeq ff.delimiter text = true
      · simp only [hend, if_true] at hl
        exact List.dropLast_subset _ hl
      · simp only [Bool.not_eq_true] at hend
        simp only [hend, Bool.false_eq_true, if_false] at hl
        exact hl
    exact splitSeqAux_not_contains ff.delimiter ff.delimiter_ne_nil
      text.length text le_rfl l hsub

theorem splitText_spec_witness :
    ((splitSeq FileFormat.unix.delimiter ['a', '\n']).getLast? = some [] ∧
      splitText ['a', '\n'] FileFormat.unix =
        (splitSeq FileFormat.unix.delimiter ['a', '\n']).dropLast) :=
  splitText_spec.1 FileFormat.unix ['a', '\n'] (by decide)

/-- Tests that every line-break character of the text occurs only inside a
CRLF pair: no bare LF and no bare CR. -/
def onlyCrlf : Txt → Bool
  | [] => true
  | [c] => c != '\n' && c != '\r'
  | c :: d :: rest =>
    if c == '\r' then d == '\n' && onlyCrlf rest
    else c != '\n' && onlyCrlf (d :: rest)

/-- A text whose breaks are all CRLF pairs and which contains no CRLF pair
contains neither a bare LF nor a bare CR. -/
theorem onlyCrlf_no_lf_cr :
    ∀ t : Txt, onlyCrlf t = true → containsSeq ['\r', '\n'] t = false →
      containsSeq ['\n'] t = false ∧ containsSeq ['\r'] t = false := by
  intro t
  induction t with
  | nil => intro _ _; exact ⟨rfl, rfl⟩
  | cons c rest ih =>
    intro honly hnc
    rw [containsSeq, Bool.or_eq_false_iff] at hnc
    obtain ⟨hsw, hnc_rest⟩ := hnc
    cases rest with
    | nil =>
      have h1 : (c != '\n') = true ∧ (c != '\r') = true := by
        simpa [onlyCrlf, Bool.and_eq_true] using honly
      have hcn : c ≠ '\n' := by simpa using h1.1
      have hcr : c ≠ '\r' := by simpa using h1.2
      have hcn' : ¬('\n' = c) := fun h => hcn h.symm
      have hcr' : ¬('\r' = c) := fun h => hcr h.symm
      constructor
      · simp [containsSeq, startsWithSeq, hcn']
      · simp [containsSeq, startsWithSeq, hcr']
    | cons d rest2 =>
      by_cases hc : c = '\r'
      · subst hc
        have hd : d = '\n' := by
          have := honly
          simp only [onlyCrlf, beq_self_eq_true, if_true, Bool.and_eq_true,
            beq_iff_eq] at this
          exact this.1
        subst hd
        exfalso
        simp [startsWithSeq] at hsw
      · have h2 : (c != '\n') = true ∧ onlyCrlf (d :: rest2) = true := by
          have hc' : (c == '\r') = false := by simpa using hc
          simpa [onlyCrlf, hc', Bool.and_eq_true] using honly
        have hcn : c ≠ '\n' := by simpa using h2.1
        obtain ⟨ih1, ih2⟩ := ih h2.2 hnc_rest
        have hcn' : ¬('\n' = c) := fun h => hcn h.symm
        have hcr' : ¬('\r' = c) := fun h => hc h.symm
        constructor
        · rw [containsSeq, Bool.or_eq_false_iff]
          refine ⟨?_, ih1⟩
          simp [startsWithSeq, hcn']
        · rw [containsSeq, Bool.or_eq_false_iff]
          refine ⟨?_, ih2⟩
          simp [startsWithSeq, hcr']

/-- C6: detection scans the candidates in the given order and returns the
first one whose delimiter occurs in the text; with candidate order
[dos, unix, mac] a text whose only breaks are CRLF pairs is detected as dos
(when a CRLF occurs) and never as unix; detection returns none exactly when
no candidate's delimiter occurs in the text. -/
theorem findFileFormat_spec :
    (∀ (text : Txt) (fmts1 : List FileFormat) (f : FileFormat) (fmts2 : List FileFormat),
        (∀ g ∈ fmts1, containsSeq g.delimiter text = false) →
        containsSeq f.delimiter text = true →
        findFileFormat text (fmts1 ++ f :: fmts2) = some f)
    ∧ (∀ text : Txt, containsSeq FileFormat.dos.delimiter text = true →
        findFileFormat text [FileFormat.dos, FileFormat.unix, FileFormat.mac] =
          some FileFormat.dos)
    ∧ (∀ text : Txt, onlyCrlf text = true →
        findFileFormat text [FileFormat.dos, FileFormat.unix, FileFormat.mac] ≠
          some FileFormat.unix)
    ∧ (∀ (text : Txt) (fmts : List FileFormat),
        findFileFormat text fmts = none ↔
          ∀ f ∈ fmts, containsSeq f.delimiter text = false) := by
  have horder : ∀ (text : Txt) (fmts1 : List FileFormat) (f : FileFormat)
      (fmts2 : List FileFormat),
      (∀ g ∈ fmts1, containsSeq g.delimiter text = false) →
      containsSeq f.delimiter text = true →
      findFileFormat text (fmts1 ++ f :: fmts2) = some f := by
    intro text fmts1
    induction fmts1 with
    | nil =>
      intro f fmts2 _ hf
      exact List.find?_cons_of_pos _ hf
    | cons g gs ih =>
      intro f fmts2 hnone hf
      rw [List.cons_append, findFileFormat, List.find?_cons_of_neg]
      · exact ih f fmts2 (fun x hx => hnone x (List.mem_cons_of_mem _ hx)) hf
      · simp [hnone g (List.mem_cons_self _ _)]
  have hdos : ∀ text : Txt, containsSeq FileFormat.dos.delimiter text = true →
      findFileFormat text [FileFormat.dos, FileFormat.unix, FileFormat.mac] =
        some FileFormat.dos := by
    intro text h
    exact List.find?_cons_of_pos _ h
  refine ⟨horder, hdos, ?_, ?_⟩
  · intro text honly
    by_cases hcrlf : containsSeq FileFormat.dos.delimiter text = true
    · rw [hdos text hcrlf]
      simp
    · have hcrlf' : containsSeq ['\r', '\n'] text = false := by
        simpa [FileFormat.delimiter, Bool.not_eq_true] using hcrlf
      obtain ⟨hlf, hcr⟩ := onlyCrlf_no_lf_cr text honly hcrlf'
      rw [findFileFormat, List.find?_cons_of_neg, List.find?_cons_of_neg,
        List.find?_cons_of_neg]
      · simp
      · simp [FileFormat.delimiter, hcr]
      · simp [FileFormat.delimiter, hlf]
      · simp [FileFormat.delimiter, hcrlf']
  · intro text fmts
    rw [findFileFormat, List.find?_eq_none]
    constructor
    · intro h f hf
      have := h f hf
      simpa [Bool.not_eq_true] using this
    · intro h f hf
      simp [h f hf]

theorem findFileFormat_spec_witness :
    (findFileFormat ['x', '\r', '\n', 'y']
        [FileFormat.dos, FileFormat.unix, FileFormat.mac] = some FileFormat.dos) ∧
    (findFileFormat ['x', '\r', '\n', 'y']
        [FileFormat.dos, FileFormat.unix, FileFormat.mac] ≠ some FileFormat.unix) :=
  ⟨findFileFormat_spec.2.1 ['x', '\r', '\n', 'y'] (by decide),
    findFileFormat_spec.2.2.1 ['x', '\r', '\n', 'y'] (by decide)⟩

/-- Raw byte input to decoding. -/
abbrev Bytes := List Nat

/-- Modelled from the spec (§4.2 EncodingDecoder; the source module
`src/buffer/fileencoding.ts` is not part of the provided sources): a
character encoding is a name together with a strict decoder, which fails on
input holding invalid sequences for that encoding, and a lossy decoder,
which always produces text. -/
structure Encoding where
  name : String
  strict : Bytes → Option Txt
  lossy : Bytes → Txt

/-- Returns the first candidate, in the given order, whose strict decoding
succeeds, paired with the text it produced. -/
def firstStrict (data : Bytes) : List Encoding → Option (String × Txt)
  | [] => none
  | e :: rest =>
    match e.strict data with
    | some t => some (e.name, t)
    | none => firstStrict data rest

/-- Modelled from the spec (§4.2 EncodingDecoder, `tryDecode` of the missing
`src/buffer/fileencoding.ts`): tries each candidate in order; the first
strict success wins; when every candidate fails, performs a lossy decode
with the last candidate and reports that encoding. -/
def tryDecode (data : Bytes) (encodings : List Encoding) : Option (String × Txt) :=
  match firstStrict data encodings with
  | some r => some r
  | none =>
    match encodings.getLast? with
    | some e => some (e.name, e.lossy data)
    | none => none

theorem firstStrict_append_none (data : Bytes) :
    ∀ pre rest, (∀ x ∈ pre, x.strict data = none) →
      firstStrict data (pre ++ rest) = firstStrict data rest := by
  intro pre
  induction pre with
  | nil => intro rest _; rfl
  | cons e es ih =>
    intro rest h
    have he : e.strict data = none := h e (List.mem_cons_self _ _)
    rw [List.cons_append, firstStrict, he]
    exact ih rest (fun x hx => h x (List.mem_cons_of_mem _ hx))

theorem firstStrict_eq_none (data : Bytes) :
    ∀ encs, (∀ x ∈ encs, x.strict data = none) → firstStrict data encs = none := by
  intro encs h
  have := firstStrict_append_none data encs [] h
  simpa using this

/-- C5: for every byte input and nonempty ordered candidate list the decoder
returns some (encoding, text) pair; the first candidate whose strict
decoding succeeds wins and is returned; when every candidate fails validity
the result is the lossy decode of the last candidate, reported under that
encoding's name. -/
theorem tryDecode_spec :
    (∀ (data : Bytes) (encodings : List Encoding), encodings ≠ [] →
        ∃ e t, tryDecode data encodings = some (e, t))
    ∧ (∀ (data : Bytes) (pre : List Encoding) (e : Encoding) (post : List Encoding)
          (t : Txt), (∀ x ∈ pre, x.strict data = none) → e.strict data = some t →
        tryDecode data (pre ++ e :: post) = some (e.name, t))
    ∧ (∀ (data : Bytes) (encodings : List Encoding) (e : Encoding),
        (∀ x ∈ encodings, x.strict data = none) →
        encodings.getLast? = some e →
        tryDecode data encodings = some (e.name, e.lossy data)) := by
  refine ⟨?_, ?_, ?_⟩
  · intro data encodings hne
    rw [tryDecode]
    cases hq : firstStrict data encodings with
    | some r => exact ⟨r.1, r.2, rfl⟩
    | none =>
      cases hl : encodings.getLast? with
      | none => exact absurd (List.getLast?_eq_none_iff.1 hl) hne
      | some e => exact ⟨e.name, e.lossy data, rfl⟩
  · intro data pre e post t hpre he
    rw [tryDecode, firstStrict_append_none data pre (e :: post) hpre, firstStrict, he]
  · intro data encodings e hall hlast
    rw [tryDecode, firstStrict_eq_none data encodings hall, hlast]

/-- A strict ASCII-only decoder used as a concrete witness encoding. -/
def asciiStrict (bs : Bytes) : Option Txt :=
  if bs.all (fun b => decide (b < 128)) then some (bs.map Char.ofNat) else none

/-- Witness encoding that accepts exactly ASCII byte sequences. -/
def utf8Enc : Encoding :=
  ⟨"utf-8", asciiStrict, fun bs => bs.map Char.ofNat⟩

/-- Witness encoding whose strict decoding always fails. -/
def latin1Enc : Encoding :=
  ⟨"latin1", fun _ => none, fun bs => bs.map Char.ofNat⟩

theorem tryDecode_spec_witness :
    tryDecode [65] [utf8Enc, latin1Enc] = some ("utf-8", ['A']) ∧
    tryDecode [200] [utf8Enc, latin1Enc] = some ("latin1", [Char.ofNat 200]) :=
  ⟨tryDecode_spec.2.1 [65] [] utf8Enc [latin1Enc] ['A'] (by simp) (by decide),
    tryDecode_spec.2.2 [200] [utf8Enc, latin1Enc] latin1Enc (by decide) rfl⟩

/-- The option bag of `decode` (src/buffer/buffer.ts, `DecodeOptions`): the
fileformat override is a plain string, as in the source, and is subject to
the `isFileFormat` guard; the fileencoding override carries the encoding the
`TextDecoder` of the source would be constructed from. -/
structure DecodeOptions where
  fileformat : Option String := none
  fileencoding : Option Encoding := none

/-- The result record of `decode` (src/buffer/buffer.ts, `DecodeResult`). -/
structure DecodeResult where
  content : List Txt
  fileformat : FileFormat
  fileencoding : String
deriving DecidableEq

/-- The encoding-selection step of `decode` (src/buffer/buffer.ts lines
274-281): an explicit `fileencoding` option decodes the data with that
encoding without validity checking (a `TextDecoder` without the fatal flag,
hence the lossy decoder); otherwise `tryDecode` runs over the host's
acceptable-encoding list. -/
def decodeText (fileencodings : List Encoding) (data : Bytes)
    (options : DecodeOptions) : String × Txt :=
  match options.fileencoding with
  | some e => (e.name, e.lossy data)
  | none =>
    match tryDecode data fileencodings with
    | some p => p
    | none => ("", [])

/-- Embeds `decode` of src/buffer/buffer.ts (lines 258-289).
`bufFileformat` is the buffer's configured fileformat and `fileformats` and
`fileencodings` are the host's acceptable lists: the three values the
function collects from the host first.  The format override is honoured
only when it passes the `isFileFormat` guard, mirroring
`maybe(options.fileformat, isFileFormat) ?? findFileFormat(text, fileformats)
?? fileformat`; the content is the split of the decoded text under the
chosen format. -/
def decode (bufFileformat : FileFormat) (fileformats : List FileFormat)
    (fileencodings : List Encoding) (data : Bytes)
    (options : DecodeOptions) : DecodeResult :=
  let et := decodeText fileencodings data options
  let ff :=
    match options.fileformat.bind parseFileFormat with
    | some f => f
    | none =>
      match findFileFormat et.2 fileformats with
      | some f => f
      | none => bufFileformat
  ⟨splitText et.2 ff, ff, et.1⟩

/-- C1 counterexample: the claim states the result's fileformat equals
`options.fileformat` whenever a format override is given.  The source
guards the override with `isFileFormat`: given the override string "bogus",
decode falls through to detection and the buffer format, so the result's
fileformat is `unix`, not the given override. -/
theorem decode_override_counterexample :
    (decode FileFormat.unix [FileFormat.unix] [] []
        { fileformat := some "bogus", fileencoding := none }).fileformat.name ≠
      "bogus" := by
  decide

/-- C1 (amended): the fileformat of the decode result equals the override
when the override names a valid file format; otherwise (no override given,
or an override failing the `isFileFormat` guard) it is the format detected
over the decoded text with the host's acceptable-format list, falling back
to the buffer's configured format when detection yields none; the content
is the ContentSplitter applied to the decoded text under the chosen format,
and the reported encoding is the one the encoding-selection step chose. -/
theorem decode_spec :
    ∀ (bufFf : FileFormat) (fileformats : List FileFormat)
      (fileencodings : List Encoding) (data : Bytes) (options : DecodeOptions),
      (∀ f : FileFormat, options.fileformat = some f.name →
        (decode bufFf fileformats fileencodings data options).fileformat = f)
      ∧ (options.fileformat.bind parseFileFormat = none →
        (decode bufFf fileformats fileencodings data options).fileformat =
          (findFileFormat (decodeText fileencodings data options).2
              fileformats).getD bufFf)
      ∧ (decode bufFf fileformats fileencodings data options).content =
          splitText (decodeText fileencodings data options).2
            (decode bufFf fileformats fileencodings data options).fileformat
      ∧ (decode bufFf fileformats fileencodings data options).fileencoding =
          (decodeText fileencodings data options).1 := by
  intro bufFf fileformats fileencodings data options
  refine ⟨?_, ?_, rfl, rfl⟩
  · intro f hf
    simp [decode, hf, parseFileFormat_name]
  · intro hnone
    simp only [decode, hnone]
    cases hq : findFileFormat (decodeText fileencodings data options).2 fileformats with
    | none => simp [hq]
    | some f => simp [hq]

theorem decode_spec_witness :
    (decode FileFormat.unix [FileFormat.unix] [] []
        { fileformat := some "dos", fileencoding := none }).fileformat =
      FileFormat.dos :=
  (decode_spec FileFormat.unix [FileFormat.unix] [] []
      { fileformat := some "dos", fileencoding := none }).1 FileFormat.dos rfl

/-- The per-buffer flag state `modifiable` manipulates, together with an
opaque payload standing for everything else the wrapped action may touch
(buffer content, other options and so on). -/
structure ModState (σ : Type) where
  modified : Bool
  modifiable : Bool
  payload : σ

/-- Embeds `modifiable` of src/buffer/buffer.ts (lines 510-531): captures
the buffer's modified and modifiable flags, forces modifiable on, runs the
executor, and restores both captured flags in the `finally` block, on the
success and on the failure path alike.  The executor returns the state it
left behind together with its outcome, so a rejecting executor still hands
its intermediate state to the restoration. -/
def modifiableCtx {σ ε α : Type} (executor : ModState σ → ModState σ × Except ε α)
    (s : ModState σ) : ModState σ × Except ε α :=
  let modified := s.modified
  let modifiable := s.modifiable
  let res := executor { s with modifiable := true }
  ({ res.1 with modified := modified, modifiable := modifiable }, res.2)

/-- C2: `modifiable` captures both flags at entry and restores exactly those
captured values on every exit path, for any executor outcome, including one
that itself toggles the flags; the executor runs on the state with
modifiable forced on and its outcome and payload are passed through; and
for nested invocations the outer call restores the flags to its own entry
values, because each restoration uses only the value captured at its own
entry. -/
theorem modifiableCtx_spec :
    ∀ (σ ε α : Type) (executor : ModState σ → ModState σ × Except ε α)
      (s : ModState σ),
      (modifiableCtx executor s).1.modified = s.modified
      ∧ (modifiableCtx executor s).1.modifiable = s.modifiable
      ∧ (modifiableCtx executor s).2 = (executor { s with modifiable := true }).2
      ∧ (modifiableCtx executor s).1.payload =
          (executor { s with modifiable := true }).1.payload
      ∧ (∀ inner : ModState σ → ModState σ × Except ε α,
          (modifiableCtx (fun t => modifiableCtx inner t) s).1.modified = s.modified
          ∧ (modifiableCtx (fun t => modifiableCtx inner t) s).1.modifiable =
              s.modifiable) := by
  intro σ ε α executor s
  refine ⟨rfl, rfl, rfl, rfl, ?_⟩
  intro inner
  exact ⟨rfl, rfl⟩

/-- The buffer state `DenopsStdBufferAppend_` manipulates. -/
structure AppendState where
  content : List Txt
  modified : Bool
  modifiable : Bool
deriving DecidableEq

/-- Embeds the Vim script function `DenopsStdBufferAppend_{suffix}` of
src/buffer/buffer.ts (lines 57-64): captures the modified and modifiable
flags, forces modifiable on, inserts the replacement lines below line
`lnum` (the `appendbufline` call), then writes the captured flags back. -/
def appendFn (s : AppendState) (lnum : Nat) (repl : List Txt) : AppendState :=
  let modified := s.modified
  let modifiable := s.modifiable
  let s1 := { s with modifiable := true }
  let s2 := { s1 with
    content := s1.content.take lnum ++ repl ++ s1.content.drop lnum }
  let s3 := { s2 with modified := modified }
  { s3 with modifiable := modifiable }

/-- C8: `append` leaves the modified flag exactly as it was immediately
before the call and likewise restores the modifiable flag, while the
replacement lines are inserted below line `lnum`. -/
theorem appendFn_spec :
    ∀ (s : AppendState) (lnum : Nat) (repl : List Txt),
      (appendFn s lnum repl).modified = s.modified
      ∧ (appendFn s lnum repl).modifiable = s.modifiable
      ∧ (appendFn s lnum repl).content =
          s.content.take lnum ++ repl ++ s.content.drop lnum := by
  intro s lnum repl
  exact ⟨rfl, rfl, rfl⟩

/-- Looks up the buffer displayed in window `win` (an association-list view
of the window layout). -/
def lookupW (win : Int) : List (Int × Int) → Option Int
  | [] => none
  | p :: rest => if p.1 = win then some p.2 else lookupW win rest

/-- Sets the buffer displayed in window `win` (the `:{bufnr}buffer` command
applied while `win` is the active window). -/
def setW (win b : Int) : List (Int × Int) → List (Int × Int)
  | [] => []
  | p :: rest =>
    if p.1 = win then (p.1, b) :: setW win b rest else p :: setW win b rest

theorem setW_not_mem (win b : Int) :
    ∀ l : List (Int × Int), win ∉ l.map Prod.fst → setW win b l = l := by
  intro l
  induction l with
  | nil => intro _; rfl
  | cons p rest ih =>
    intro h
    have h1 : p.1 ≠ win := by
      intro he
      exact h (by simp [he])
    rw [setW, if_neg h1, ih (fun hm => h (by simp [hm]))]

theorem lookupW_mem (win v : Int) :
    ∀ l : List (Int × Int), lookupW win l = some v → (win, v) ∈ l := by
  intro l
  induction l with
  | nil => intro h; cases h
  | cons p rest ih =>
    intro h
    rw [lookupW] at h
    by_cases hp : p.1 = win
    · rw [if_pos hp] at h
      have hv : p.2 = v := Option.some.inj h
      have hpw : p = (win, v) := by
        rw [Prod.ext_iff]
        exact ⟨hp, hv⟩
      rw [← hpw]
      exact List.mem_cons_self _ _
    · rw [if_neg hp] at h
      exact List.mem_cons_of_mem _ (ih h)

/-- Setting a window's buffer and then setting it back to the buffer it
displayed before restores the original layout. -/
theorem setW_restore (win b b0 : Int) :
    ∀ l : List (Int × Int), (l.map Prod.fst).Nodup → lookupW win l = some b0 →
      setW win b0 (setW win b l) = l := by
  intro l
  induction l with
  | nil => intro _ h; cases h
  | cons p rest ih =>
    intro hnd hl
    have hnd' : p.1 ∉ rest.map Prod.fst ∧ (rest.map Prod.fst).Nodup := by
      have := hnd
      rw [List.map_cons, List.nodup_cons] at this
      exact this
    by_cases hp : p.1 = win
    · rw [lookupW, if_pos hp] at hl
      have hb : p.2 = b0 := Option.some.inj hl
      have hnot : win ∉ rest.map Prod.fst := by
        rw [← hp]
        exact hnd'.1
      rw [setW, if_pos hp, setW, if_pos hp, setW_not_mem win b rest hnot,
        setW_not_mem win b0 rest hnot, ← hb]
    · rw [lookupW, if_neg hp] at hl
      rw [setW, if_neg hp, setW, if_neg hp, ih hnd'.2 hl]

/-- The host-editor window state `ensure` manipulates: the active window,
the window layout (pairs of window id and displayed buffer number, in the
order `bufwinid` scans them), and an opaque payload for everything else the
wrapped action may touch. -/
structure EnsureWorld (σ : Type) where
  activeWin : Int
  winBuf : List (Int × Int)
  payload : σ

/-- The `bufwinid()` host call: id of the first window displaying `bufnr`,
or -1 when none does. -/
def bufwinid {σ : Type} (w : EnsureWorld σ) (bufnr : Int) : Int :=
  ((w.winBuf.find? (fun p => p.2 == bufnr)).map (fun p => p.1)).getD (-1)

/-- The `:{b}buffer` command: switch the active window's displayed buffer. -/
def setWinBuf {σ : Type} (w : EnsureWorld σ) (win b : Int) : EnsureWorld σ :=
  { w with winBuf := setW win b w.winBuf }

/-- Embeds `ensure` of src/buffer/buffer.ts (lines 459-490): collects the
current buffer, current window and `bufwinid(bufnr)`; when the current
window already is that window, runs the executor in place; when `bufnr` is
displayed nowhere, switches the active window's buffer to `bufnr` and back
in a `finally`; otherwise moves focus to that window and back in a
`finally`.  The executor receives the window it runs in and returns the
payload it left behind together with its outcome, so a rejecting executor
still reaches the restoration step. -/
def ensureCtx {σ ε α : Type} (w : EnsureWorld σ) (bufnr : Int)
    (executor : Int → σ → σ × Except ε α) : EnsureWorld σ × Except ε α :=
  let bufnrCur := (lookupW w.activeWin w.winBuf).getD (-1)
  let winidCur := w.activeWin
  let winidNext := bufwinid w bufnr
  if winidCur = winidNext then
    let res := executor winidCur w.payload
    ({ w with payload := res.1 }, res.2)
  else if winidNext = -1 then
    let w1 := setWinBuf w winidCur bufnr
    let res := executor winidCur w1.payload
    (setWinBuf { w1 with payload := res.1 } winidCur bufnrCur, res.2)
  else
    let w1 := { w with activeWin := winidNext }
    let res := executor w1.activeWin w1.payload
    ({ w1 with payload := res.1, activeWin := winidCur }, res.2)

/-- C3 counterexample: with buffer 5 displayed in windows 1 and 2 and window
2 active, buffer 5 is the active buffer, yet `ensure` does not run the
action in place: `bufwinid` yields window 1, so the action runs with window
1 active (the executor observes window 1, not the entry window 2).  The
focus identifiers are nevertheless restored afterwards. -/
theorem ensureCtx_counterexample :
    lookupW 2 [((1 : Int), (5 : Int)), (2, 5)] = some 5 ∧
    (ensureCtx (σ := Unit) (ε := Unit) (α := Int)
        ⟨2, [(1, 5), (2, 5)], ()⟩ 5 (fun wid _ => ((), Except.ok wid))).2 =
      Except.ok 1 ∧
    (ensureCtx (σ := Unit) (ε := Unit) (α := Int)
        ⟨2, [(1, 5), (2, 5)], ()⟩ 5 (fun wid _ => ((), Except.ok wid))).2 ≠
      Except.ok 2 := by
  refine ⟨rfl, rfl, ?_⟩
  intro h
  have := Except.ok.inj (Eq.trans (Eq.symm rfl) h)
  cases this

/-- C3 (amended): under a well-formed layout (window ids are distinct and
never the sentinel -1): whenever `bufnr` is the active buffer the active
window and the whole layout are unchanged after the call; when the active
window is the first window displaying `bufnr` the action runs in place and
only the payload changes; when the first window displaying `bufnr` is
another window, the action runs with that window active and focus returns
to the original window on every exit path, the layout untouched; and when
`bufnr` is displayed nowhere, the active window's buffer is switched to
`bufnr` for the action and switched back on every exit path, restoring the
original layout. -/
theorem ensureCtx_spec :
    ∀ (σ ε α : Type) (w : EnsureWorld σ) (bufnr : Int)
      (executor : Int → σ → σ × Except ε α),
      (w.winBuf.map Prod.fst).Nodup →
      (-1 : Int) ∉ w.winBuf.map Prod.fst →
      (lookupW w.activeWin w.winBuf = some bufnr →
        (ensureCtx w bufnr executor).1.activeWin = w.activeWin
        ∧ (ensureCtx w bufnr executor).1.winBuf = w.winBuf)
      ∧ (w.winBuf.find? (fun p => p.2 == bufnr) = some (w.activeWin, bufnr) →
        ensureCtx w bufnr executor =
          ({ w with payload := (executor w.activeWin w.payload).1 },
            (executor w.activeWin w.payload).2))
      ∧ (∀ wid b, w.winBuf.find? (fun p => p.2 == bufnr) = some (wid, b) →
          wid ≠ w.activeWin →
          ensureCtx w bufnr executor =
            ({ w with payload := (executor wid w.payload).1 },
              (executor wid w.payload).2))
      ∧ (∀ b0, w.winBuf.find? (fun p => p.2 == bufnr) = none →
          lookupW w.activeWin w.winBuf = some b0 →
          (ensureCtx w bufnr executor).1.winBuf = w.winBuf
          ∧ (ensureCtx w bufnr executor).1.activeWin = w.activeWin
          ∧ (ensureCtx w bufnr executor).1.payload =
              (executor w.activeWin w.payload).1
          ∧ (ensureCtx w bufnr executor).2 = (executor w.activeWin w.payload).2) := by
  intro σ ε α w bufnr executor hkeys hno
  refine ⟨?_, ?_, ?_, ?_⟩
  · intro hA
    have hmem : (w.activeWin, bufnr) ∈ w.winBuf := lookupW_mem _ _ _ hA
    have hsome : (w.winBuf.find? (fun p => p.2 == bufnr)).isSome := by
      rw [List.find?_isSome]
      exact ⟨(w.activeWin, bufnr), hmem, by simp⟩
    obtain ⟨q, hq⟩ := Option.isSome_iff_exists.1 hsome
    have hqmem : q ∈ w.winBuf := List.mem_of_find?_eq_some hq
    have hwnext : bufwinid w bufnr = q.1 := by
      rw [bufwinid, hq]
      rfl
    by_cases hcase : w.activeWin = bufwinid w bufnr
    · rw [ensureCtx, if_pos hcase]
      exact ⟨rfl, rfl⟩
    · have hne1 : bufwinid w bufnr ≠ -1 := by
        rw [hwnext]
        intro hq1
        exact hno (hq1 ▸ List.mem_map_of_mem Prod.fst hqmem)
      rw [ensureCtx, if_neg hcase, if_neg hne1]
      exact ⟨rfl, rfl⟩
  · intro hB
    have hwnext : bufwinid w bufnr = w.activeWin := by
      rw [bufwinid, hB]
      rfl
    rw [ensureCtx, if_pos hwnext.symm]
  · intro wid b hfind hne
    have hwnext : bufwinid w bufnr = wid := by
      rw [bufwinid, hfind]
      rfl
    have hqmem : (wid, b) ∈ w.winBuf := List.mem_of_find?_eq_some hfind
    have hne1 : bufwinid w bufnr ≠ -1 := by
      rw [hwnext]
      intro hq1
      exact hno (by
        have := List.mem_map_of_mem Prod.fst hqmem
        rw [hq1] at this
        exact this)
    rw [ensureCtx, if_neg (fun hx => hne (hwnext ▸ hx).symm), if_neg hne1, hwnext]
  · intro b0 hfind hcur
    have hwnext : bufwinid w bufnr = -1 := by
      rw [bufwinid, hfind]
      rfl
    have hmem : (w.activeWin, b0) ∈ w.winBuf := lookupW_mem _ _ _ hcur
    have hne1 : w.activeWin ≠ bufwinid w bufnr := by
      rw [hwnext]
      intro hq1
      exact hno (by
        have := List.mem_map_of_mem Prod.fst hmem
        rw [← hq1]
        exact this)
    rw [ensureCtx, if_neg hne1, if_pos hwnext]
    refine ⟨?_, rfl, rfl, rfl⟩
    show setW w.activeWin ((lookupW w.activeWin w.winBuf).getD (-1))
        (setW w.activeWin bufnr w.winBuf) = w.winBuf
    rw [hcur]
    exact setW_restore w.activeWin bufnr b0 w.winBuf hkeys hcur

theorem ensureCtx_spec_witness :
    (ensureCtx (σ := Unit) (ε := Unit) (α := Int)
        ⟨1, [(1, 5)], ()⟩ 5 (fun wid _ => ((), Except.ok wid))).1.activeWin = 1 ∧
    (ensureCtx (σ := Unit) (ε := Unit) (α := Int)
        ⟨1, [(1, 5)], ()⟩ 5 (fun wid _ => ((), Except.ok wid))).1.winBuf =
      [(1, 5)] :=
  (ensureCtx_spec Unit Unit Int ⟨1, [(1, 5)], ()⟩ 5
      (fun wid _ => ((), Except.ok wid)) (by decide) (by decide)).1 rfl

/-- A snapshot stored by the concrete-store hook: the buffer's file type and
full content. -/
structure Snapshot where
  filetype : String
  content : List Txt
deriving DecidableEq

/-- The host state the concrete-store/restore hooks operate on: the current
buffer (number, content, file type, format and encoding option names) with
its guard flags, and the session-scoped snapshot cache keyed by buffer
number. -/
structure ConcreteState where
  curBufnr : Int
  content : List Txt
  filetype : String
  fileformatName : String
  fileencodingName : String
  modified : Bool
  modifiable : Bool
  cache : List (Int × Snapshot)
deriving DecidableEq

/-- Cache lookup, `get(s:cache, bufnr(), v:null)` of the restore hook. -/
def lookupSnap (k : Int) : List (Int × Snapshot) → Option Snapshot
  | [] => none
  | p :: rest => if p.1 = k then some p.2 else lookupSnap k rest

/-- Cache overwrite: each store replaces any previous snapshot of the same
buffer. -/
def setSnap (k : Int) (v : Snapshot) :
    List (Int × Snapshot) → List (Int × Snapshot)
  | [] => [(k, v)]
  | p :: rest => if p.1 = k then (k, v) :: rest else p :: setSnap k v rest

theorem lookupSnap_setSnap_same (k : Int) (v : Snapshot) :
    ∀ m, lookupSnap k (setSnap k v m) = some v := by
  intro m
  induction m with
  | nil => simp [setSnap, lookupSnap]
  | cons p rest ih =>
    by_cases hp : p.1 = k
    · rw [setSnap, if_pos hp, lookupSnap, if_pos rfl]
    · rw [setSnap, if_neg hp, lookupSnap, if_neg hp, ih]

/-- Embeds `DenopsStdBufferReplace_{suffix}` (src/buffer/buffer.ts lines
66-80): captures the flags, forces modifiable on, sets the fileformat and
fileencoding options when they are not null, replaces the whole content
(`setbufline(1, repl)` followed by `deletebufline(len+1, '$')`), then
writes the captured flags back. -/
def replaceFn (s : ConcreteState) (repl : List Txt)
    (ff fe : Option String) : ConcreteState :=
  let modified := s.modified
  let modifiable := s.modifiable
  let s1 := { s with modifiable := true }
  let s2 := match ff with
    | some f => { s1 with fileformatName := f }
    | none => s1
  let s3 := match fe with
    | some e => { s2 with fileencodingName := e }
    | none => s2
  let s4 := { s3 with content := repl }
  let s5 := { s4 with modified := modified }
  { s5 with modifiable := modifiable }

/-- Embeds `DenopsStdBufferConcreteStore_{suffix}` (src/buffer/buffer.ts
lines 96-101): stores the current buffer's filetype and content into the
cache under the current buffer number, overwriting any prior snapshot. -/
def storeFn (s : ConcreteState) : ConcreteState :=
  { s with cache := setSnap s.curBufnr ⟨s.filetype, s.content⟩ s.cache }

/-- Embeds `DenopsStdBufferConcreteRestore_{suffix}` (src/buffer/buffer.ts
lines 82-94): a cache miss is a silent no-op; a hit writes the stored
content back through the Replace function (with null format and encoding)
and then restores the stored filetype. -/
def restoreFn (s : ConcreteState) : ConcreteState :=
  match lookupSnap s.curBufnr s.cache with
  | none => s
  | some c =>
    let s1 := replaceFn s c.content none none
    { s1 with filetype := c.filetype }

/-- Embeds the buffer-side effect of `concrete` (src/buffer/buffer.ts lines
404-433): after (re)registering the write and read hooks for the buffer it
immediately invokes the store function. -/
def concreteFn (s : ConcreteState) : ConcreteState :=
  storeFn s

/-- C4: a restore with no snapshot stored for the current buffer is a
silent no-op; and after `concrete` stored the initial snapshot, a
write-hook firing while the buffer holds content C1 and filetype ft1
refreshes the snapshot, so a later content-discarding read-hook restores
exactly C1 and ft1 — not the content or filetype present when `concrete`
was first called — while the guard flags of the discarded buffer are left
as the Replace function found them. -/
theorem concreteRestore_spec :
    (∀ s : ConcreteState, lookupSnap s.curBufnr s.cache = none → restoreFn s = s)
    ∧ (∀ (s : ConcreteState) (c1 junk : List Txt) (ft1 junkft : String),
        (restoreFn { storeFn { concreteFn s with content := c1, filetype := ft1 }
            with content := junk, filetype := junkft }).content = c1
        ∧ (restoreFn { storeFn { concreteFn s with content := c1, filetype := ft1 }
            with content := junk, filetype := junkft }).filetype = ft1
        ∧ (restoreFn { storeFn { concreteFn s with content := c1, filetype := ft1 }
            with content := junk, filetype := junkft }).modified = s.modified
        ∧ (restoreFn { storeFn { concreteFn s with content := c1, filetype := ft1 }
            with content := junk, filetype := junkft }).modifiable = s.modifiable) := by
  constructor
  · intro s h
    rw [restoreFn, h]
  · intro s c1 junk ft1 junkft
    have hlook : lookupSnap s.curBufnr
        (setSnap s.curBufnr ⟨ft1, c1⟩
          (setSnap s.curBufnr ⟨s.filetype, s.content⟩ s.cache)) =
        some ⟨ft1, c1⟩ := lookupSnap_setSnap_same _ _ _
    refine ⟨?_, ?_, ?_, ?_⟩ <;>
      simp [restoreFn, storeFn, concreteFn, replaceFn, hlook]

theorem concreteRestore_spec_witness :
    restoreFn
        { curBufnr := 1, content := [['x']], filetype := "t",
          fileformatName := "unix", fileencodingName := "utf-8",
          modified := false, modifiable := true, cache := [] } =
      { curBufnr := 1, content := [['x']], filetype := "t",
        fileformatName := "unix", fileencodingName := "utf-8",
        modified := false, modifiable := true, cache := [] } :=
  concreteRestore_spec.1 _ rfl

/-- The per-session state `ensurePrerequisites` manipulates: the
`denops.context[cacheKey]` memo cell, the list of suffixes whose
registration script ran, and a monotone counter modelling the freshness of
`ulid()`. -/
structure SessionState where
  contextSuffix : Option Nat
  registered : List Nat
  nextUlid : Nat
deriving DecidableEq

/-- Embeds `ensurePrerequisites` of src/buffer/buffer.ts (lines 19-125): a
memoized suffix in the context cell is returned before any host call;
otherwise a fresh suffix is generated, stored in the context cell, the
registration script for it is executed (recorded by appending to
`registered`), and the suffix is returned. -/
def ensurePrerequisites (s : SessionState) : Nat × SessionState :=
  match s.contextSuffix with
  | some suffix => (suffix, s)
  | none =>
    let suffix := s.nextUlid
    (suffix,
      { contextSuffix := some suffix
        registered := s.registered ++ [suffix]
        nextUlid := s.nextUlid + 1 })

/-- C9: in a state whose registered suffixes are all older than the fresh
counter, a first call generates a suffix never registered before, registers
it exactly once, and memoizes it; any call finding a memoized suffix
returns it with the state untouched; hence a repeated call is idempotent
and side-effect-free, returning the same suffix and the same state. -/
theorem ensurePrerequisites_spec :
    ∀ s : SessionState,
      (∀ x ∈ s.registered, x < s.nextUlid) →
      (s.contextSuffix = none →
        (ensurePrerequisites s).1 ∉ s.registered
        ∧ (ensurePrerequisites s).2.registered =
            s.registered ++ [(ensurePrerequisites s).1]
        ∧ (ensurePrerequisites s).2.contextSuffix =
            some (ensurePrerequisites s).1)
      ∧ (∀ suffix, s.contextSuffix = some suffix →
          ensurePrerequisites s = (suffix, s))
      ∧ ensurePrerequisites (ensurePrerequisites s).2 =
          ((ensurePrerequisites s).1, (ensurePrerequisites s).2) := by
  intro s hfresh
  refine ⟨?_, ?_, ?_⟩
  · intro hnone
    refine ⟨?_, by simp [ensurePrerequisites, hnone], by simp [ensurePrerequisites, hnone]⟩
    simp only [ensurePrerequisites, hnone]
    intro hmem
    exact absurd (hfresh _ hmem) (lt_irrefl _)
  · intro suffix hsome
    simp [ensurePrerequisites, hsome]
  · cases hc : s.contextSuffix with
    | some suffix => simp [ensurePrerequisites, hc]
    | none => simp [ensurePrerequisites, hc]

theorem ensurePrerequisites_spec_witness :
    ((ensurePrerequisites ⟨none, [], 0⟩).1 ∉ ([] : List Nat)
      ∧ (ensurePrerequisites ⟨none, [], 0⟩).2.registered =
          [] ++ [(ensurePrerequisites ⟨none, [], 0⟩).1]
      ∧ (ensurePrerequisites ⟨none, [], 0⟩).2.contextSuffix =
          some (ensurePrerequisites ⟨none, [], 0⟩).1) :=
  (ensurePrerequisites_spec ⟨none, [], 0⟩ (by simp)).1 rfl

/-- A JavaScript `URL` object as the load helper sees it: a heap
reference identity carrying an href value.  Each `new URL(...)` evaluation
yields a fresh reference; two URL objects with equal hrefs are still
distinct members of a `Set<URL>`, which compares members by identity. -/
structure URLObj where
  ref : Nat
  href : String
deriving DecidableEq

/-- The process-wide state of the load helper: `const loaded = new
Set<URL>()` of the source, empty at process start.  The set holds URL
objects compared by identity, embedded as the list of their references. -/
structure LoadState where
  loaded : List Nat
deriving DecidableEq

/-- The observable outcome of one `load` call: its returned or thrown
result, the state it left, and whether the script was actually sourced. -/
structure LoadOutcome where
  result : Except Unit Bool
  state : LoadState
  sourced : Bool

/-- Records a URL object in the loaded set (`loaded.add(url)`): membership
is by the object's identity, and adding a member again is a no-op. -/
def addLoaded (url : URLObj) (s : LoadState) : LoadState :=
  if s.loaded.contains url.ref then s else { loaded := s.loaded ++ [url.ref] }

/-- Embeds `load` of the load helper source (lines 617-633): without
`force`, a URL object already in the loaded set returns false and sources
nothing — `loaded.has(url)` on a `Set<URL>` tests the object's identity,
not its href; otherwise the script is fetched and sourced — `hostOk`
stands for the success of `ensureLocalFile` and `execute`, whose failure
propagates before the set is touched — then the object is recorded and
true is returned. -/
def load (s : LoadState) (url : URLObj) (force : Bool) (hostOk : Bool) :
    LoadOutcome :=
  if !force && s.loaded.contains url.ref then
    ⟨Except.ok false, s, false⟩
  else if hostOk then
    ⟨Except.ok true, addLoaded url s, true⟩
  else
    ⟨Except.error (), s, false⟩

theorem contains_addLoaded (url : URLObj) (s : LoadState) :
    (addLoaded url s).loaded.contains url.ref = true := by
  rw [addLoaded]
  by_cases h : s.loaded.contains url.ref = true
  · rw [if_pos h]
    exact h
  · rw [if_neg h]
    simp [List.elem_iff]

theorem contains_false_of_not_mem {l : List Nat} {r : Nat} (h : r ∉ l) :
    l.contains r = false := by
  cases hb : l.contains r with
  | false => rfl
  | true => exact absurd (by simpa using hb) h

/-- C10 counterexample: the loaded cache is a `Set<URL>` of URL objects
compared by identity, not by URL value.  After a successful non-forced
load of a URL object with href "https://example.com/foo.vim", a later
non-forced load of the same URL presented as a distinct object with that
same href misses the cache: the script is sourced again and true is
returned, refuting the claim that a later non-forced load of the same URL
returns false and does not source the script again. -/
theorem load_identity_counterexample :
    (URLObj.mk 1 "https://example.com/foo.vim").href =
      (URLObj.mk 2 "https://example.com/foo.vim").href
    ∧ (load ⟨[]⟩ ⟨1, "https://example.com/foo.vim"⟩ false true).result =
        Except.ok true
    ∧ (load (load ⟨[]⟩ ⟨1, "https://example.com/foo.vim"⟩ false true).state
          ⟨2, "https://example.com/foo.vim"⟩ false true).sourced = true
    ∧ (load (load ⟨[]⟩ ⟨1, "https://example.com/foo.vim"⟩ false true).state
          ⟨2, "https://example.com/foo.vim"⟩ false true).result =
        Except.ok true :=
  ⟨rfl, rfl, rfl, rfl⟩

/-- C10 (amended): the loaded set holds URL objects compared by identity
and is consulted before sourcing — a non-forced load of an already loaded
URL object returns false, sources nothing and leaves the state unchanged;
a load of an unrecorded object, or any forced load, sources the script and
returns true when the host succeeds, and only then records the object; a
host failure propagates as an error with the set untouched; the set only
ever grows during the process; after any successful sourcing of a URL
object, a subsequent non-forced load of that same object returns false
without sourcing, while a distinct, previously unrecorded URL object —
even one with an equal href — is treated as a first load and is sourced. -/
theorem load_spec :
    ∀ (s : LoadState) (url : URLObj) (force hostOk : Bool),
      (s.loaded.contains url.ref = true → force = false →
        load s url force hostOk = ⟨Except.ok false, s, false⟩)
      ∧ ((s.loaded.contains url.ref = false ∨ force = true) → hostOk = true →
        (load s url force hostOk).result = Except.ok true
        ∧ (load s url force hostOk).sourced = true
        ∧ (load s url force hostOk).state.loaded.contains url.ref = true)
      ∧ (hostOk = false →
        (load s url force hostOk).state = s
        ∧ (load s url force hostOk).sourced = false)
      ∧ (∀ r, r ∈ s.loaded → r ∈ (load s url force hostOk).state.loaded)
      ∧ ((load s url force true).sourced = true →
        load (load s url force true).state url false hostOk =
          ⟨Except.ok false, (load s url force true).state, false⟩)
      ∧ (∀ url2 : URLObj, url2.ref ≠ url.ref → url2.ref ∉ s.loaded →
        hostOk = true →
        (load (load s url force true).state url2 false hostOk).sourced = true
        ∧ (load (load s url force true).state url2 false hostOk).result =
            Except.ok true) := by
  intro s url force hostOk
  refine ⟨?_, ?_, ?_, ?_, ?_, ?_⟩
  · intro hc hf
    subst hf
    rw [load, if_pos (by rw [Bool.not_false, Bool.true_and]; exact hc)]
  · intro hor hok
    subst hok
    have hcond : (!force && s.loaded.contains url.ref) = false := by
      rcases hor with hc | hf
      · rw [hc, Bool.and_false]
      · rw [hf, Bool.not_true, Bool.false_and]
    rw [load, if_neg (by rw [hcond]; exact Bool.false_ne_true), if_pos rfl]
    exact ⟨rfl, rfl, contains_addLoaded url s⟩
  · intro hok
    subst hok
    rw [load]
    by_cases hcond : (!force && s.loaded.contains url.ref) = true
    · rw [if_pos hcond]
      exact ⟨rfl, rfl⟩
    · rw [if_neg hcond, if_neg (by simp)]
      exact ⟨rfl, rfl⟩
  · intro r hr
    rw [load]
    by_cases hcond : (!force && s.loaded.contains url.ref) = true
    · rw [if_pos hcond]
      exact hr
    · rw [if_neg hcond]
      by_cases hok : hostOk = true
      · rw [if_pos hok]
        show r ∈ (addLoaded url s).loaded
        rw [addLoaded]
        by_cases hc : s.loaded.contains url.ref = true
        · rw [if_pos hc]
          exact hr
        · rw [if_neg hc]
          simp only [List.mem_append]
          exact Or.inl hr
      · rw [if_neg hok]
        exact hr
  · intro hsrc
    have hc : (load s url force true).state.loaded.contains url.ref = true := by
      rw [load] at hsrc ⊢
      by_cases hcond : (!force && s.loaded.contains url.ref) = true
      · rw [if_pos hcond] at hsrc
        cases hsrc
      · rw [if_neg hcond, if_pos rfl] at hsrc ⊢
        exact contains_addLoaded url s
    rw [load, if_pos (by rw [Bool.not_false, Bool.true_and]; exact hc)]
  · intro url2 hne hnot2 hok
    subst hok
    have hnotin : (load s url force true).state.loaded.contains url2.ref = false := by
      apply contains_false_of_not_mem
      rw [load]
      by_cases hcond : (!force && s.loaded.contains url.ref) = true
      · rw [if_pos hcond]
        exact hnot2
      · rw [if_neg hcond, if_pos rfl]
        show url2.ref ∉ (addLoaded url s).loaded
        rw [addLoaded]
        by_cases hc : s.loaded.contains url.ref = true
        · rw [if_pos hc]
          exact hnot2
        · rw [if_neg hc]
          intro hm
          rcases List.mem_append.1 hm with hm1 | hm2
          · exact hnot2 hm1
          · exact hne (by simpa using hm2)
    have hcond2 :
        ¬((!false && (load s url force true).state.loaded.contains url2.ref) = true) := by
      rw [Bool.not_false, Bool.true_and, hnotin]
      exact Bool.false_ne_true
    rw [load, if_neg hcond2, if_pos rfl]
    exact ⟨rfl, rfl⟩

theorem load_spec_witness :
    ((load ⟨[]⟩ ⟨1, "u"⟩ false true).result = Except.ok true
      ∧ (load ⟨[]⟩ ⟨1, "u"⟩ false true).sourced = true
      ∧ (load ⟨[]⟩ ⟨1, "u"⟩ false true).state.loaded.contains 1 = true) :=
  (load_spec ⟨[]⟩ ⟨1, "u"⟩ false true).2.1 (Or.inl rfl) rfl
